import Mathlib

/-!
Verification of the CodeGrapher code-graph builder (src/main.py).

This file shallowly embeds the parts of the program that the claims are
about:

* the graph data model (`CodeNode`, `CodeEdge`, `GraphState`);
* the cross-file reference resolver
  (`MultiLanguageCodeGraphBuilder._resolve_cross_file_references`),
  including the symbol indices `function_lookup`, `class_lookup` and
  `method_lookup` built over the node set, and the per-edge resolution
  dispatch on the `call_type` metadata;
* the hierarchical tree layout (`HierarchicalLayout._calculate_subtree_size`
  and `HierarchicalLayout._position_subtree`);
* the node-creation and id scheme of `PythonParser.parse_file`;
* the circle-packing layout, which is described in the specification but is
  absent from the source tree; it is modelled from the spec text.

Python dicts are modelled as association lists with insert-or-overwrite
(`dset`) and first-match lookup (`dget`); since `dset` keeps keys unique,
this matches dict semantics.  Python floats in the layout code are modelled
as exact rationals (the layout only adds, maxes and halves), and the
circle-packing geometry as real numbers.  Machine strings are Lean
`String`s; the two string operations the resolver uses on the
`unresolved::` sentinel (`str.startswith` and `str.replace` with the empty
replacement) are implemented directly on the character list so that they
compute by structural recursion.
-/

namespace CodeGrapher

/-- Node kinds, mirroring the `NodeType` enum of the source. -/
inductive NodeType where
  | file
  | cls
  | method
  | function
  | var
  | imp
  | module
  | package
  | interface
deriving DecidableEq

/-- A graph node, mirroring the `CodeNode` dataclass: id, display name,
kind, and the optional parent back-reference.  The source-location fields
(`file_path`, `line`, `column`) and the open metadata map play no role in
any claim about the resolver and are omitted from the node embedding; the
id string already determines them where needed. -/
structure CodeNode where
  id : String
  name : String
  type : NodeType
  parent_id : Option String := none
deriving DecidableEq

/-- The metadata map attached to an edge, restricted to the keys the
program ever reads or writes: `call_type`, `object` (the receiver name of
a method call) and `class` (the qualifier of a Java static call, written
`qualifier` here).  A `none` field models an absent key. -/
structure Metadata where
  call_type : Option String := none
  object : Option String := none
  qualifier : Option String := none
deriving DecidableEq

/-- A graph edge, mirroring the `CodeEdge` dataclass. -/
structure CodeEdge where
  source : String
  target : String
  type : String
  metadata : Metadata := {}
deriving DecidableEq

/-- The builder state the resolver works on: `self.nodes` (as the list of
dict items in insertion order; ids are unique since they are dict keys)
and `self.edges`. -/
structure GraphState where
  nodes : List CodeNode
  edges : List CodeEdge
deriving DecidableEq

/-! ### Python dict operations -/

/-- Dict assignment `m[k] = v` (used both for the symbol indices and for
`self.nodes`): overwrite the binding of `k` if present, otherwise append a
new binding. -/
def dset {α : Type} (m : List (String × α)) (k : String) (v : α) : List (String × α) :=
  match m with
  | [] => [(k, v)]
  | (k1, v1) :: rest => if k1 = k then (k, v) :: rest else (k1, v1) :: dset rest k v

/-- Dict lookup `m.get(k)` / `m[k]`: the value bound to `k`, if any. -/
def dget {α : Type} (m : List (String × α)) (k : String) : Option α :=
  match m with
  | [] => none
  | (k1, v1) :: rest => if k1 = k then some v1 else dget rest k

/-! ### The `unresolved::` sentinel

`JavaParser` and `PythonParser` emit edges whose target is the placeholder
string `"unresolved::" ++ name`; the resolver tests for the placeholder
with `edge.target.startswith("unresolved::")` and recovers the name with
`edge.target.replace("unresolved::", "")` (Python `str.replace` removes
every non-overlapping occurrence, scanning left to right). -/

/-- Python `s.replace("unresolved::", "")` on the character list: remove
every occurrence of the 12-character sentinel, scanning left to right. -/
def removeMark : List Char → List Char
  | 'u' :: 'n' :: 'r' :: 'e' :: 's' :: 'o' :: 'l' :: 'v' :: 'e' :: 'd' :: ':' :: ':' :: rest =>
      removeMark rest
  | c :: rest => c :: removeMark rest
  | [] => []

/-- `edge.target.replace("unresolved::", "")`. -/
def stripMark (s : String) : String :=
  String.mk (removeMark s.data)

/-- `s.startswith("unresolved::")`. -/
def hasMark (s : String) : Bool :=
  match s.data with
  | 'u' :: 'n' :: 'r' :: 'e' :: 's' :: 'o' :: 'l' :: 'v' :: 'e' :: 'd' :: ':' :: ':' :: _ => true
  | _ => false

/-! ### Symbol indices

`_resolve_cross_file_references` first builds three dicts in one loop over
`self.nodes.items()`:

    function_lookup[node.name] = node_id          (FUNCTION nodes)
    class_lookup[node.name] = node_id             (CLASS nodes)
    method_lookup[parent.name '.' node.name] = node_id
                                                  (METHOD nodes whose parent
                                                   resolves to a CLASS)

Because the three assignments touch disjoint dicts, the single loop is
equivalently three folds over the same node list; each fold is expressed
through `buildIndex` with the per-kind key function. -/

/-- One pass of index construction: for every node (in discovery order)
whose key function fires, assign `index[key] = node.id`. -/
def buildIndex (key : CodeNode → Option String) (nodes : List CodeNode) :
    List (String × String) :=
  nodes.foldl (fun m n => match key n with | some k => dset m k n.id | none => m) []

/-- Key of a node in `function_lookup`. -/
def funKey (n : CodeNode) : Option String :=
  if n.type = NodeType.function then some n.name else none

/-- Key of a node in `class_lookup`. -/
def clsKey (n : CodeNode) : Option String :=
  if n.type = NodeType.cls then some n.name else none

/-- Key of a node in `method_lookup`: `parent.name ++ "." ++ node.name`
when `self.nodes.get(node.parent_id)` is a CLASS node (`allNodes` is the
full node dict the parent is looked up in). -/
def methodKey (allNodes : List CodeNode) (n : CodeNode) : Option String :=
  if n.type = NodeType.method then
    match n.parent_id with
    | some pid =>
      match allNodes.find? (fun p => p.id == pid) with
      | some p => if p.type = NodeType.cls then some (p.name ++ "." ++ n.name) else none
      | none => none
    | none => none
  else none

/-- `function_lookup`. -/
def function_lookup (nodes : List CodeNode) : List (String × String) :=
  buildIndex funKey nodes

/-- `class_lookup`. -/
def class_lookup (nodes : List CodeNode) : List (String × String) :=
  buildIndex clsKey nodes

/-- `method_lookup`. -/
def method_lookup (nodes : List CodeNode) : List (String × String) :=
  buildIndex (methodKey nodes) nodes

/-! ### Per-edge resolution

The body of the `for edge in self.edges` loop for an edge whose target
carries the `unresolved::` mark.  The source computes `resolved_target`,
possibly rewrites `edge.type` to `"instantiates"` (the mutation is only
observable through the freshly appended edge, since `self.edges` is then
replaced wholesale), and appends `CodeEdge(edge.source, resolved_target,
edge.type, edge.metadata)` on success; on failure the edge is only
counted.  `none` models the dropped edge.

Note the dispatch: there are branches for `call_type == 'function'` and
`call_type == 'method' and obj_name` only; every other `call_type`
(including `'constructor'` and `'static'`, which `JavaParser` emits) falls
through with `resolved_target = None`. -/
def resolveTarget (fl cl ml : List (String × String)) (e : CodeEdge) :
    Option (String × String) :=
  if e.metadata.call_type.getD "function" = "function" then
    match dget fl (stripMark e.target) with
    | some t => some (t, e.type)
    | none =>
      match dget cl (stripMark e.target) with
      | some t => some (t, "instantiates")
      | none => none
  else if e.metadata.call_type.getD "function" = "method" then
    match e.metadata.object with
    | some objName =>
      if objName = "" then none
      else
        match dget cl objName with
        | some _ =>
          match dget ml (objName ++ "." ++ stripMark e.target) with
          | some t => some (t, e.type)
          | none => none
        | none => none
    | none => none
  else none

/-- On success, the loop body appends
`CodeEdge(edge.source, resolved_target, edge.type, edge.metadata)`, where
`edge.type` may just have been rewritten to `"instantiates"`. -/
def resolveOne (fl cl ml : List (String × String)) (e : CodeEdge) : Option CodeEdge :=
  (resolveTarget fl cl ml e).map
    (fun tv => { source := e.source, target := tv.1, type := tv.2, metadata := e.metadata })

/-- The edge loop: marked edges are resolved (and counted) or dropped (and
counted); unmarked edges pass through unchanged.  Returns
`(resolved_edges, resolved_count, unresolved_count)`. -/
def resolveEdges (fl cl ml : List (String × String)) :
    List CodeEdge → List CodeEdge × ℕ × ℕ
  | [] => ([], 0, 0)
  | e :: rest =>
    let r := resolveEdges fl cl ml rest
    if hasMark e.target then
      match resolveOne fl cl ml e with
      | some e1 => (e1 :: r.1, r.2.1 + 1, r.2.2)
      | none => (r.1, r.2.1, r.2.2 + 1)
    else (e :: r.1, r.2.1, r.2.2)

/-- `_resolve_cross_file_references`: build the three indices over the full
node set, rewrite or drop every unresolved edge, and replace `self.edges`
with the result (`self.nodes` is not touched).  Returns the new state
together with `(resolved_count, unresolved_count)`. -/
def resolveCrossFileReferences (g : GraphState) : GraphState × ℕ × ℕ :=
  let fl := function_lookup g.nodes
  let cl := class_lookup g.nodes
  let ml := method_lookup g.nodes
  let r := resolveEdges fl cl ml g.edges
  (⟨g.nodes, r.1⟩, r.2)

/-! ### Index characterization: the latest same-keyed node wins

`buildIndex` assigns `index[key] = node.id` for every matching node in
discovery order, so a later assignment overwrites an earlier one.
`lastKeyed` is the specification-side description of the result: the id of
the last node in discovery order carrying the key. -/

/-- The id of the LAST node in discovery order whose key is `k`: a match
later in the list takes precedence over any earlier one. -/
def lastKeyed (key : CodeNode → Option String) (k : String) : List CodeNode → Option String
  | [] => none
  | n :: ns =>
    match lastKeyed key k ns with
    | some v => some v
    | none => if key n = some k then some n.id else none

/-! ### Hierarchical tree layout

`HierarchicalLayout` derives a parent/child forest from the `parent_id`
back-references and then runs two recursive passes over it:
`_calculate_subtree_size` (post-order sizes) and `_position_subtree`
(pre-order placement).  Both passes are structural recursions over the
containment forest, so the forest itself is embedded as a tree type
(`HTree`/`HForest`); every numeric value the passes compute lives in ℚ
(the Python floats only ever add, take maxima and halve, so the embedding
is exact).  The child list order is the discovery order of the source;
positions come out in pre-order, one pair per node. -/

mutual
inductive HTree where
  | mk (type : NodeType) (ch : HForest)
inductive HForest where
  | nil
  | cons (t : HTree) (ts : HForest)
end

/-- Number of children (`len(children[node_id])`). -/
def hlen : HForest → ℕ
  | .nil => 0
  | .cons _ ts => hlen ts + 1

mutual
/-- `_calculate_subtree_size`: a leaf gets the fixed box `(150, 100)`; an
internal node sums its children's widths, adds a 50-unit gap per pair of
adjacent siblings, takes the running maximum of the children's heights
(the loop starts at 0, hence `foldl max 0`), and then applies the
kind-specific padding and minimum. -/
def calculate_subtree_size : HTree → ℚ × ℚ
  | .mk ty ch =>
    match ch with
    | .nil => (150, 100)
    | .cons _ _ =>
      let tw := ((subtree_sizes ch).map Prod.fst).sum + 50 * ((hlen ch : ℚ) - 1)
      let mh := ((subtree_sizes ch).map Prod.snd).foldl max 0
      match ty with
      | NodeType.file => (max (tw + 100) 300, mh + 200)
      | NodeType.cls => (max (tw + 80) 250, mh + 150)
      | _ => (max tw 150, mh + 100)
/-- The sizes of the trees of a forest, in child order. -/
def subtree_sizes : HForest → List (ℚ × ℚ)
  | .nil => []
  | .cons t ts => calculate_subtree_size t :: subtree_sizes ts
end

/-- `total_children_width` as computed in `_position_subtree`: the sum of
the children's widths plus the 50-unit inter-sibling gaps. -/
def total_children_width (ch : HForest) : ℚ :=
  ((subtree_sizes ch).map Prod.fst).sum + 50 * ((hlen ch : ℚ) - 1)

mutual
/-- `_position_subtree`: record the node's own position `(x, y)`, then
place the children left to right starting at `x - total_children_width/2`,
every child at `child_y = y + 150`, in pre-order. -/
def position_subtree : HTree → ℚ → ℚ → List (ℚ × ℚ)
  | .mk _ ch, x, y =>
    (x, y) :: position_children ch (x - total_children_width ch / 2) (y + 150)
/-- The loop over `children[node_id]`: each child is centered on
`current_x + child_width/2` and `current_x` advances by the child's width
plus the 50-unit gap. -/
def position_children : HForest → ℚ → ℚ → List (ℚ × ℚ)
  | .nil, _, _ => []
  | .cons t ts, cx, cy =>
    position_subtree t (cx + (calculate_subtree_size t).1 / 2) cy ++
      position_children ts (cx + (calculate_subtree_size t).1 + 50) cy
end

/-- `calculate_positions`: each root subtree is placed at
`current_x + subtree_width/2` with `y = 0`, and `current_x` advances by the
subtree width plus a 100-unit gap.  The source iterates `sorted(roots)`;
the forest argument here stands for the roots in that sorted order. -/
def calculate_positions : HForest → ℚ → List (ℚ × ℚ)
  | .nil, _ => []
  | .cons t ts, cx =>
    position_subtree t (cx + (calculate_subtree_size t).1 / 2) 0 ++
      calculate_positions ts (cx + (calculate_subtree_size t).1 + 100)

mutual
/-- Specification-side observer: the containment depth of every node of a
subtree, in the same pre-order as `position_subtree` lists positions. -/
def depthsT : HTree → List ℕ
  | .mk _ ch => 0 :: (depthsF ch).map (· + 1)
/-- Depths over a forest, each tree starting at depth 0. -/
def depthsF : HForest → List ℕ
  | .nil => []
  | .cons t ts => depthsT t ++ depthsF ts
end

/-! ### Claim-side restatement of the size pass (C6) -/

mutual
/-- The size pass, written the way the specification phrases it: base
width is the sum of the children's widths plus 50 per gap between
siblings, `H` is the maximum child height (as a fold from the right this
time), then the kind-specific width minimum and height padding. -/
def spec_subtree_size : HTree → ℚ × ℚ
  | .mk ty ch =>
    match ch with
    | .nil => (150, 100)
    | .cons _ _ =>
      let base := ((spec_sizes ch).map Prod.fst).sum + 50 * ((hlen ch : ℚ) - 1)
      let bigH := ((spec_sizes ch).map Prod.snd).foldr max 0
      match ty with
      | NodeType.file => (max (base + 100) 300, bigH + 200)
      | NodeType.cls => (max (base + 80) 250, bigH + 150)
      | _ => (max base 150, bigH + 100)
def spec_sizes : HForest → List (ℚ × ℚ)
  | .nil => []
  | .cons t ts => spec_subtree_size t :: spec_sizes ts
end

/-! ### Circle-packing layout

The specification (§4.4) describes a second layout engine, the
circle-packing layout.  No such code exists under `src/`; every definition
in this section is therefore modelled from the specification text and its
doc comment says which sentence it renders.  It operates on the same
containment forest type `HTree`/`HForest` as the hierarchical layout. -/

/-- Modelled from the spec: "a leaf's radius is a fixed constant by kind
(File 40, Class 25, Method/Function 15, other 10)".  The circle-packing
layout is absent from src/. -/
noncomputable def leaf_radius : NodeType → ℝ
  | NodeType.file => 40
  | NodeType.cls => 25
  | NodeType.method => 15
  | NodeType.function => 15
  | _ => 10

/-- Modelled from the spec: "`kindMinimum` is 80 (File), 50 (Class), 30
(other)".  The circle-packing layout is absent from src/. -/
noncomputable def kind_minimum : NodeType → ℝ
  | NodeType.file => 80
  | NodeType.cls => 50
  | _ => 30

mutual
/-- Modelled from the spec: pass 1 of the circle-packing layout (absent
from src/).  "An internal node with exactly one child:
`radius = childRadius + 30`.  With N>1 children:
`radius = max(sqrt(Σ(π·r_i²)/π) + max(r_i) + 20, kindMinimum)`". -/
noncomputable def pack_radius : HTree → ℝ
  | .mk ty .nil => leaf_radius ty
  | .mk _ (.cons c .nil) => pack_radius c + 30
  | .mk ty (.cons c (.cons c2 cs)) =>
    let rs := pack_radii (HForest.cons c (HForest.cons c2 cs))
    max (Real.sqrt ((rs.map (fun r => Real.pi * r ^ 2)).sum / Real.pi) + rs.foldr max 0 + 20)
      (kind_minimum ty)
/-- The radii of the trees of a forest, in child order. -/
noncomputable def pack_radii : HForest → List ℝ
  | .nil => []
  | .cons t ts => pack_radius t :: pack_radii ts
end

/-- A parent/child record of the laid-out tree: the child's center and
radius together with its parent's center and radius. -/
structure PackEntry where
  center : ℝ × ℝ
  radius : ℝ
  parent_center : ℝ × ℝ
  parent_radius : ℝ

/-- Membership of a tree in a forest (the child list). -/
def memF (t : HTree) : HForest → Prop
  | .nil => False
  | .cons c cs => t = c ∨ memF t cs

/-- Euclidean distance between two points of the plane. -/
noncomputable def dist2 (p q : ℝ × ℝ) : ℝ :=
  Real.sqrt ((p.1 - q.1) ^ 2 + (p.2 - q.2) ^ 2)

mutual
/-- Modelled from the spec: pass 2 of the circle-packing layout (absent
from src/).  "A single child is placed concentric with its parent.
Multiple children are distributed at equal angular steps (`2π/childCount`)
at radius `max(parentRadius - maxChildRadius - 10, maxChildRadius + 20)`
from the parent's center."  `pack_pairs t pc` lays the tree `t` out with
its root centered at `pc` and returns one `PackEntry` per parent/child
pair of the whole subtree. -/
noncomputable def pack_pairs : HTree → ℝ × ℝ → List PackEntry
  | .mk _ .nil, _ => []
  | .mk ty (.cons c .nil), pc =>
    ⟨pc, pack_radius c, pc, pack_radius (.mk ty (.cons c .nil))⟩ :: pack_pairs c pc
  | .mk ty (.cons c (.cons c2 cs)), pc =>
    pack_children pc (pack_radius (.mk ty (.cons c (.cons c2 cs))))
      (max (pack_radius (.mk ty (.cons c (.cons c2 cs)))
              - (pack_radii (HForest.cons c (HForest.cons c2 cs))).foldr max 0 - 10)
           ((pack_radii (HForest.cons c (HForest.cons c2 cs))).foldr max 0 + 20))
      (hlen (HForest.cons c (HForest.cons c2 cs)))
      (HForest.cons c (HForest.cons c2 cs)) 0
/-- The k-th of n children is placed at angle `2πk/n` and distance `d`
from the parent center `pc`; `pr` is the parent's radius. -/
noncomputable def pack_children (pc : ℝ × ℝ) (pr d : ℝ) (n : ℕ) :
    HForest → ℕ → List PackEntry
  | .nil, _ => []
  | .cons c cs, k =>
    ⟨(pc.1 + d * Real.cos (2 * Real.pi * (k : ℝ) / (n : ℝ)),
      pc.2 + d * Real.sin (2 * Real.pi * (k : ℝ) / (n : ℝ))),
     pack_radius c, pc, pr⟩ ::
      (pack_pairs c
          (pc.1 + d * Real.cos (2 * Real.pi * (k : ℝ) / (n : ℝ)),
           pc.2 + d * Real.sin (2 * Real.pi * (k : ℝ) / (n : ℝ))) ++
        pack_children pc pr d n cs (k + 1))
end

/-- Modelled from the spec: "roots are placed left to right along a
baseline, each offset by its own radius plus a 50-unit gap after the
previous root" (circle-packing layout, absent from src/). -/
noncomputable def pack_forest : HForest → ℝ → List PackEntry
  | .nil, _ => []
  | .cons t ts, cx =>
    pack_pairs t (cx + pack_radius t, 0) ++ pack_forest ts (cx + 2 * pack_radius t + 50)

/-! ### Python parser: node creation and the id scheme

`PythonParser.parse_file` walks the module AST and creates one node per
class (with its methods), per top-level function and per import, with ids
built by f-strings:

    class ....... f"{file_id}::{node.name}:{node.lineno}"
    method ...... f"{class_id}::{item.name}:{item.lineno}"
    function .... f"{file_id}::{node.name}:{node.lineno}"
    an import ... f"{file_id}::import:{node.lineno}"

All four follow one scheme `prefix::name:line`, where an import's "name"
is the fixed token `import` — the imported module name does not enter the
id.  The statements are embedded as the data the walk reads off the AST
(name, line number, and for classes the method list); the call-edge
analysis of the same pass creates no nodes and is omitted. -/

/-- A Python statement as far as node creation is concerned. -/
inductive PyStmt where
  | classDef (name : String) (line : ℕ) (methods : List (String × ℕ))
  | funcDef (name : String) (line : ℕ)
  | importStmt (moduleName : String) (line : ℕ)

/-- The id scheme of all four f-strings: `prefix::name:line`. -/
def pyDeclId (pre name : String) (line : ℕ) : String :=
  pre ++ "::" ++ name ++ ":" ++ Nat.repr line

/-- Node creation of the second pass of `PythonParser.parse_file`, in walk
order: a class node followed by its method nodes, function nodes, and
the import nodes (whose id uses the literal token `import` and whose
display name is the imported module). -/
def pyNodes (fid : String) : List PyStmt → List CodeNode
  | [] => []
  | .classDef nm ln ms :: rest =>
    { id := pyDeclId fid nm ln, name := nm, type := NodeType.cls, parent_id := some fid } ::
      (ms.map (fun m =>
        { id := pyDeclId (pyDeclId fid nm ln) m.1 m.2, name := m.1,
          type := NodeType.method, parent_id := some (pyDeclId fid nm ln) }) ++
        pyNodes fid rest)
  | .funcDef nm ln :: rest =>
    { id := pyDeclId fid nm ln, name := nm, type := NodeType.function,
      parent_id := some fid } :: pyNodes fid rest
  | .importStmt m ln :: rest =>
    { id := pyDeclId fid "import" ln, name := m, type := NodeType.imp,
      parent_id := some fid } :: pyNodes fid rest

/-! ### Concrete inputs used by the claim theorems -/

/-- First of two same-named top-level functions, in discovery order. -/
def c1nodeA : CodeNode :=
  { id := "a.py::f:1", name := "f", type := NodeType.function, parent_id := some "a.py" }

/-- Second of two same-named top-level functions, in discovery order. -/
def c1nodeB : CodeNode :=
  { id := "b.py::f:5", name := "f", type := NodeType.function, parent_id := some "b.py" }

/-- A Java file node. -/
def c2file : CodeNode := { id := "A.java", name := "A.java", type := NodeType.file }

/-- A locally declared class `Foo`. -/
def c2foo : CodeNode :=
  { id := "A.java::Foo:1", name := "Foo", type := NodeType.cls, parent_id := some "A.java" }

/-- A method `m` of `Foo`. -/
def c2m : CodeNode :=
  { id := "A.java::Foo:1::m:2", name := "m", type := NodeType.method,
    parent_id := some "A.java::Foo:1" }

/-- The edge `JavaParser` emits for `new Foo()` inside `m` (source lines
174-181): kind `instantiates`, metadata `call_type = constructor`. -/
def c2edge : CodeEdge :=
  { source := "A.java::Foo:1::m:2", target := "unresolved::Foo", type := "instantiates",
    metadata := { call_type := some "constructor" } }

/-- A Python file node. -/
def c3file : CodeNode := { id := "m.py", name := "m.py", type := NodeType.file }

/-- A local function `a`. -/
def c3a : CodeNode :=
  { id := "m.py::a:1", name := "a", type := NodeType.function, parent_id := some "m.py" }

/-- A local function `b`. -/
def c3b : CodeNode :=
  { id := "m.py::b:4", name := "b", type := NodeType.function, parent_id := some "m.py" }

/-- The edge `PythonParser` emits for the direct call `b()` inside `a`. -/
def c3call : CodeEdge :=
  { source := "m.py::a:1", target := "unresolved::b", type := "calls",
    metadata := { call_type := some "function" } }

/-- A small graph (two local functions, one resolvable and one external
call) used to witness idempotence of resolution. -/
def c7g : GraphState :=
  ⟨[{ id := "u.py", name := "u.py", type := NodeType.file },
    { id := "u.py::g:1", name := "g", type := NodeType.function, parent_id := some "u.py" },
    { id := "u.py::h:3", name := "h", type := NodeType.function, parent_id := some "u.py" }],
   [{ source := "u.py::g:1", target := "unresolved::h", type := "calls",
      metadata := { call_type := some "function" } },
    { source := "u.py::g:1", target := "unresolved::zzz", type := "calls",
      metadata := { call_type := some "function" } }]⟩

/-- A function whose body calls `externalLib.doThing()`. -/
def c8caller : CodeNode :=
  { id := "ext.py::f:1", name := "f", type := NodeType.function, parent_id := some "ext.py" }

/-- The method-call edge for `externalLib.doThing()`; `externalLib` is not
a locally declared class. -/
def c8extCall : CodeEdge :=
  { source := "ext.py::f:1", target := "unresolved::doThing", type := "calls",
    metadata := { call_type := some "method", object := some "externalLib" } }

/-- A Java file node. -/
def c10file : CodeNode := { id := "B.java", name := "B.java", type := NodeType.file }

/-- A locally declared class `Base`. -/
def c10base : CodeNode :=
  { id := "B.java::Base:1", name := "Base", type := NodeType.cls, parent_id := some "B.java" }

/-- A locally declared class `Derived`. -/
def c10derived : CodeNode :=
  { id := "B.java::Derived:5", name := "Derived", type := NodeType.cls,
    parent_id := some "B.java" }

/-- The edge `JavaParser` emits for `class Derived extends Base` (source
line 241): kind `inherits`, empty metadata — no `call_type` key. -/
def c10inherits : CodeEdge :=
  { source := "B.java::Derived:5", target := "unresolved::Base", type := "inherits" }

/-! ### Lemmas -/

theorem dget_dset {α : Type} (m : List (String × α)) (k : String) (v : α) (k1 : String) :
    dget (dset m k v) k1 = if k1 = k then some v else dget m k1 := by
  induction m with
  | nil =>
    by_cases h : k1 = k
    · subst h; simp [dset, dget]
    · simp [dset, dget, h, Ne.symm h]
  | cons p rest ih =>
    obtain ⟨k2, v2⟩ := p
    by_cases h2 : k2 = k
    · subst h2
      by_cases h : k1 = k2
      · subst h; simp [dset, dget]
      · simp [dset, dget, h, Ne.symm h]
    · by_cases h : k1 = k2
      · subst h
        simp [dset, dget, h2, Ne.symm h2]
      · simp [dset, dget, h2, Ne.symm h, ih]

theorem dget_indexStep (key : CodeNode → Option String) (k : String) (n : CodeNode)
    (m : List (String × String)) :
    dget (match key n with | some k2 => dset m k2 n.id | none => m) k
      = match (if key n = some k then some n.id else none) with
        | some v => some v
        | none => dget m k := by
  cases hk : key n with
  | none => simp
  | some k2 =>
    by_cases h : k2 = k
    · subst h; simp [dget_dset]
    · have h2 : ¬ (some k2 = some k) := fun hh => h (Option.some.inj hh)
      have h3 : ¬ (k = k2) := fun hh => h hh.symm
      simp [dget_dset, h2, h3]

theorem dget_buildIndex (key : CodeNode → Option String) (k : String) :
    ∀ (ns : List CodeNode) (m : List (String × String)),
    dget (ns.foldl (fun m n => match key n with | some k2 => dset m k2 n.id | none => m) m) k
      = match lastKeyed key k ns with
        | some v => some v
        | none => dget m k := by
  intro ns
  induction ns with
  | nil => intro m; simp [lastKeyed]
  | cons n ns ih =>
    intro m
    rw [List.foldl_cons, ih]
    cases hl : lastKeyed key k ns with
    | some v => simp [lastKeyed, hl]
    | none => simp [lastKeyed, hl, dget_indexStep]

theorem dget_index (key : CodeNode → Option String) (nodes : List CodeNode) (k : String) :
    dget (buildIndex key nodes) k = lastKeyed key k nodes := by
  unfold buildIndex
  rw [dget_buildIndex]
  cases hl : lastKeyed key k nodes with
  | some v => simp
  | none => simp [dget]

theorem lastKeyed_mem (key : CodeNode → Option String) (k : String) :
    ∀ (ns : List CodeNode) (v : String), lastKeyed key k ns = some v →
    ∃ n, n ∈ ns ∧ key n = some k ∧ n.id = v := by
  intro ns
  induction ns with
  | nil => intro v h; simp [lastKeyed] at h
  | cons n ns ih =>
    intro v h
    unfold lastKeyed at h
    cases hl : lastKeyed key k ns with
    | some w =>
      rw [hl] at h
      have hwv : w = v := Option.some.inj h
      obtain ⟨n1, hmem, hkey, hid⟩ := ih w hl
      exact ⟨n1, List.mem_cons_of_mem _ hmem, hkey, hwv ▸ hid⟩
    | none =>
      rw [hl] at h
      by_cases hk : key n = some k
      · refine ⟨n, List.mem_cons_self _ _, hk, ?_⟩
        simpa [hk] using h
      · simp [hk] at h

/-- Every value stored in an index is the id of some node of the list the
index was built over. -/
theorem dget_index_isNodeId (key : CodeNode → Option String) (nodes : List CodeNode)
    (k v : String) (h : dget (buildIndex key nodes) k = some v) :
    ∃ n, n ∈ nodes ∧ n.id = v := by
  rw [dget_index] at h
  obtain ⟨n, hmem, _, hid⟩ := lastKeyed_mem key k nodes v h
  exact ⟨n, hmem, hid⟩

/-! ### Resolver lemmas -/

/-- Whatever branch fires, a successfully computed resolution target comes
out of one of the three indices. -/
theorem resolveTarget_mem (fl cl ml : List (String × String)) (e : CodeEdge)
    (t : String) (ty : String) (h : resolveTarget fl cl ml e = some (t, ty)) :
    dget fl (stripMark e.target) = some t ∨
    dget cl (stripMark e.target) = some t ∨
    (∃ q, dget ml q = some t) := by
  unfold resolveTarget at h
  split at h
  · split at h
    · rename_i t1 heq
      have ht : t1 = t := congrArg Prod.fst (Option.some.inj h)
      exact Or.inl (heq.trans (congrArg some ht))
    · rename_i heq
      split at h
      · rename_i t1 heq2
        have ht : t1 = t := congrArg Prod.fst (Option.some.inj h)
        exact Or.inr (Or.inl (heq2.trans (congrArg some ht)))
      · simp at h
  · split at h
    · split at h
      · rename_i objName heq
        split at h
        · simp at h
        · split at h
          · rename_i c heq2
            split at h
            · rename_i t1 heq3
              have ht : t1 = t := congrArg Prod.fst (Option.some.inj h)
              exact Or.inr (Or.inr ⟨objName ++ "." ++ stripMark e.target,
                heq3.trans (congrArg some ht)⟩)
            · simp at h
          · simp at h
      · simp at h
    · simp at h

/-- A successfully resolved edge's new target always comes out of one of
the three indices. -/
theorem resolveOne_target (fl cl ml : List (String × String)) (e e1 : CodeEdge)
    (h : resolveOne fl cl ml e = some e1) :
    dget fl (stripMark e.target) = some e1.target ∨
    dget cl (stripMark e.target) = some e1.target ∨
    (∃ q, dget ml q = some e1.target) := by
  unfold resolveOne at h
  cases hrt : resolveTarget fl cl ml e with
  | none => rw [hrt] at h; exact absurd h (by simp)
  | some tv =>
    rw [hrt] at h
    obtain ⟨t, ty⟩ := tv
    have he1 : e1.target = t := by
      have h2 := Option.some.inj h
      rw [← h2]
    rw [he1]
    exact resolveTarget_mem fl cl ml e t ty hrt

/-- After one pass over a node set whose ids do not carry the sentinel, no
surviving edge target carries the sentinel. -/
theorem resolveEdges_markFree (fl cl ml : List (String × String))
    (hfl : ∀ k v, dget fl k = some v → hasMark v = false)
    (hcl : ∀ k v, dget cl k = some v → hasMark v = false)
    (hml : ∀ k v, dget ml k = some v → hasMark v = false) :
    ∀ (es : List CodeEdge), ∀ e1 ∈ (resolveEdges fl cl ml es).1, hasMark e1.target = false := by
  intro es
  induction es with
  | nil => intro e1 h1; simp [resolveEdges] at h1
  | cons e es ih =>
    intro e1 h1
    unfold resolveEdges at h1
    by_cases hm : hasMark e.target
    · rw [if_pos hm] at h1
      cases hro : resolveOne fl cl ml e with
      | none => rw [hro] at h1; exact ih e1 h1
      | some e2 =>
        rw [hro] at h1
        rcases List.mem_cons.mp h1 with h1 | h1
        · subst h1
          rcases resolveOne_target fl cl ml e e1 hro with h | h | ⟨q, h⟩
          · exact hfl _ _ h
          · exact hcl _ _ h
          · exact hml _ _ h
        · exact ih e1 h1
    · rw [if_neg hm] at h1
      rcases List.mem_cons.mp h1 with h1 | h1
      · subst h1; exact Bool.not_eq_true _ ▸ (by simpa using hm)
      · exact ih e1 h1

/-- Resolving an edge list in which no target carries the sentinel is a
no-op: every edge passes through unchanged and both counters stay zero. -/
theorem resolveEdges_noop (fl cl ml : List (String × String)) :
    ∀ (es : List CodeEdge), (∀ e ∈ es, hasMark e.target = false) →
    resolveEdges fl cl ml es = (es, 0, 0) := by
  intro es
  induction es with
  | nil => intro _; rfl
  | cons e es ih =>
    intro h
    have he : hasMark e.target = false := h e (List.mem_cons_self _ _)
    have hrest : resolveEdges fl cl ml es = (es, 0, 0) :=
      ih (fun e1 h1 => h e1 (List.mem_cons_of_mem _ h1))
    unfold resolveEdges
    rw [hrest]
    simp [he]

/-- Index values inherit mark-freeness from the node ids. -/
theorem index_markFree (key : CodeNode → Option String) (nodes : List CodeNode)
    (hids : ∀ n ∈ nodes, hasMark n.id = false) :
    ∀ k v, dget (buildIndex key nodes) k = some v → hasMark v = false := by
  intro k v h
  obtain ⟨n, hmem, hid⟩ := dget_index_isNodeId key nodes k v h
  exact hid ▸ hids n hmem

/-- The edge loop is the evident filterMap: marked edges are replaced by
their resolution (or dropped), unmarked edges pass through unchanged; the
unresolved counter counts exactly the dropped edges, and dropped edges are
the only ones missing from the output. -/
theorem resolveEdges_spec (fl cl ml : List (String × String)) :
    ∀ (es : List CodeEdge),
    (resolveEdges fl cl ml es).1
      = es.filterMap (fun e => if hasMark e.target then resolveOne fl cl ml e else some e) ∧
    (resolveEdges fl cl ml es).2.2
      = (es.filter (fun e => hasMark e.target && (resolveOne fl cl ml e).isNone)).length ∧
    (resolveEdges fl cl ml es).1.length + (resolveEdges fl cl ml es).2.2 = es.length := by
  intro es
  induction es with
  | nil => refine ⟨rfl, rfl, rfl⟩
  | cons e es ih =>
    obtain ⟨ih1, ih2, ih3⟩ := ih
    by_cases hm : hasMark e.target
    · cases hro : resolveOne fl cl ml e with
      | some e2 =>
        refine ⟨?_, ?_, ?_⟩
        · simp [resolveEdges, hm, hro, List.filterMap_cons, ih1]
        · simp [resolveEdges, hm, hro, List.filter_cons, ih2]
        · simp only [resolveEdges, hm, hro, if_true, List.length_cons]
          omega
      | none =>
        refine ⟨?_, ?_, ?_⟩
        · simp [resolveEdges, hm, hro, List.filterMap_cons, ih1]
        · simp [resolveEdges, hm, hro, List.filter_cons, ih2]
        · simp only [resolveEdges, hm, hro, if_true, List.length_cons]
          omega
    · refine ⟨?_, ?_, ?_⟩
      · simp [resolveEdges, hm, List.filterMap_cons, ih1]
      · simp [resolveEdges, hm, List.filter_cons, ih2]
      · simp only [resolveEdges, hm, if_false, List.length_cons, Bool.false_eq_true]
        omega

mutual
theorem position_subtree_layerY (t : HTree) (x y : ℚ) :
    List.Forall₂ (fun (p : ℚ × ℚ) (d : ℕ) => p.2 = y + 150 * (d : ℚ))
      (position_subtree t x y) (depthsT t) := by
  cases t with
  | mk ty ch =>
    simp only [position_subtree, depthsT]
    refine List.Forall₂.cons (by push_cast; ring) ?_
    rw [List.forall₂_map_right_iff]
    refine (position_children_layerY ch (x - total_children_width ch / 2) (y + 150)).imp ?_
    intro a b hab
    rw [hab]
    push_cast
    ring
theorem position_children_layerY (F : HForest) (cx cy : ℚ) :
    List.Forall₂ (fun (p : ℚ × ℚ) (d : ℕ) => p.2 = cy + 150 * (d : ℚ))
      (position_children F cx cy) (depthsF F) := by
  cases F with
  | nil =>
    simp only [position_children, depthsF]
    exact List.Forall₂.nil
  | cons t ts =>
    simp only [position_children, depthsF]
    exact List.rel_append (position_subtree_layerY t _ cy) (position_children_layerY ts _ cy)
end

theorem calculate_positions_layerY : ∀ (F : HForest) (cx : ℚ),
    List.Forall₂ (fun (p : ℚ × ℚ) (d : ℕ) => p.2 = 150 * (d : ℚ))
      (calculate_positions F cx) (depthsF F)
  | .nil, cx => by
    simp only [calculate_positions, depthsF]
    exact List.Forall₂.nil
  | .cons t ts, cx => by
    simp only [calculate_positions, depthsF]
    refine List.rel_append ?_ (calculate_positions_layerY ts _)
    refine (position_subtree_layerY t _ 0).imp ?_
    intro a b hab
    rw [hab]
    ring

theorem foldr_max_swap (l : List ℚ) : ∀ a b : ℚ, l.foldr max (max a b) = max b (l.foldr max a) := by
  induction l with
  | nil => intro a b; simp [max_comm]
  | cons y l ih => intro a b; simp only [List.foldr_cons, ih, max_left_comm]

theorem foldl_max_eq_foldr_max (l : List ℚ) : ∀ a : ℚ, l.foldl max a = l.foldr max a := by
  induction l with
  | nil => intro a; rfl
  | cons x l ih =>
    intro a
    rw [List.foldr_cons, List.foldl_cons, ih, foldr_max_swap]

mutual
theorem calculate_subtree_size_eq_spec (t : HTree) :
    calculate_subtree_size t = spec_subtree_size t := by
  cases t with
  | mk ty ch =>
    cases ch with
    | nil => rfl
    | cons c cs =>
      have hs : subtree_sizes (HForest.cons c cs) = spec_sizes (HForest.cons c cs) :=
        subtree_sizes_eq_spec (HForest.cons c cs)
      simp only [calculate_subtree_size, spec_subtree_size, hs, foldl_max_eq_foldr_max]
theorem subtree_sizes_eq_spec (F : HForest) : subtree_sizes F = spec_sizes F := by
  cases F with
  | nil => rfl
  | cons t ts =>
    simp only [subtree_sizes, spec_sizes, calculate_subtree_size_eq_spec t,
      subtree_sizes_eq_spec ts]
end

/-! Geometry helpers for the containment invariant. -/

theorem le_foldr_max (l : List ℝ) (r : ℝ) (h : r ∈ l) : r ≤ l.foldr max 0 := by
  induction l with
  | nil => cases h
  | cons x l ih =>
    rcases List.mem_cons.mp h with h | h
    · subst h; exact le_max_left _ _
    · exact (ih h).trans (le_max_right _ _)

theorem foldr_max_nonneg (l : List ℝ) : 0 ≤ l.foldr max 0 := by
  induction l with
  | nil => exact le_refl 0
  | cons x l ih => exact ih.trans (le_max_right _ _)

theorem foldr_max_mem_or_zero (l : List ℝ) : l.foldr max 0 ∈ l ∨ l.foldr max 0 = 0 := by
  induction l with
  | nil => exact Or.inr rfl
  | cons x l ih =>
    rcases max_choice x (l.foldr max 0) with h | h
    · exact Or.inl (by rw [List.foldr_cons, h]; exact List.mem_cons_self _ _)
    · rcases ih with ih | ih
      · exact Or.inl (by rw [List.foldr_cons, h]; exact List.mem_cons_of_mem _ ih)
      · exact Or.inr (by rw [List.foldr_cons, h, ih])

theorem foldr_max_le_sqrt_sum_sq (l : List ℝ) :
    l.foldr max 0 ≤ Real.sqrt ((l.map (fun r => r ^ 2)).sum) := by
  rcases foldr_max_mem_or_zero l with h | h
  · have h1 : (l.foldr max 0) ^ 2 ≤ (l.map (fun r => r ^ 2)).sum := by
      refine List.single_le_sum (fun x hx => ?_) _ (List.mem_map_of_mem _ h)
      rcases List.mem_map.mp hx with ⟨y, _, hy⟩
      rw [← hy]; exact sq_nonneg y
    calc l.foldr max 0 = Real.sqrt ((l.foldr max 0) ^ 2) :=
          (Real.sqrt_sq (foldr_max_nonneg l)).symm
      _ ≤ _ := Real.sqrt_le_sqrt h1
  · rw [h]; exact Real.sqrt_nonneg _

theorem pi_sum_div_pi (l : List ℝ) :
    ((l.map (fun r => Real.pi * r ^ 2)).sum / Real.pi) = (l.map (fun r => r ^ 2)).sum := by
  rw [List.sum_map_mul_left, mul_div_cancel_left₀ _ Real.pi_ne_zero]

theorem mem_pack_radii (c : HTree) : ∀ (F : HForest), memF c F → pack_radius c ∈ pack_radii F
  | .nil, h => absurd h (by simp [memF])
  | .cons t ts, h => by
    rcases h with h | h
    · subst h; simp [pack_radii]
    · simp only [pack_radii, List.mem_cons]
      exact Or.inr (mem_pack_radii c ts h)

/-- For a node with at least two children the placement distance is
non-negative and any child circle placed at that distance stays inside
the parent circle. -/
theorem pack_distance_ok (ty : NodeType) (c c2 : HTree) (cs : HForest) :
    0 ≤ max (pack_radius (.mk ty (.cons c (.cons c2 cs)))
              - (pack_radii (HForest.cons c (HForest.cons c2 cs))).foldr max 0 - 10)
            ((pack_radii (HForest.cons c (HForest.cons c2 cs))).foldr max 0 + 20) ∧
    ∀ c1, memF c1 (HForest.cons c (HForest.cons c2 cs)) →
      max (pack_radius (.mk ty (.cons c (.cons c2 cs)))
            - (pack_radii (HForest.cons c (HForest.cons c2 cs))).foldr max 0 - 10)
          ((pack_radii (HForest.cons c (HForest.cons c2 cs))).foldr max 0 + 20)
        + pack_radius c1 ≤ pack_radius (.mk ty (.cons c (.cons c2 cs))) := by
  set F := HForest.cons c (HForest.cons c2 cs) with hF
  set rmax := (pack_radii F).foldr max 0 with hrmax
  have hrmax0 : 0 ≤ rmax := foldr_max_nonneg _
  have hR : pack_radius (.mk ty (.cons c (.cons c2 cs)))
      = max (Real.sqrt (((pack_radii F).map (fun r => Real.pi * r ^ 2)).sum / Real.pi)
              + rmax + 20) (kind_minimum ty) := by
    rw [pack_radius]
  set R := pack_radius (.mk ty (.cons c (.cons c2 cs))) with hRdef
  have hsqrt : rmax ≤ Real.sqrt (((pack_radii F).map (fun r => Real.pi * r ^ 2)).sum / Real.pi) := by
    rw [pi_sum_div_pi]
    exact foldr_max_le_sqrt_sum_sq _
  have hRge : 2 * rmax + 20 ≤ R := by
    rw [hR]
    refine le_trans ?_ (le_max_left _ _)
    linarith
  constructor
  · exact le_trans (by linarith) (le_max_right _ _)
  · intro c1 hmem
    have hc1 : pack_radius c1 ≤ rmax := le_foldr_max _ _ (mem_pack_radii c1 F hmem)
    rcases max_choice (R - rmax - 10) (rmax + 20) with h | h <;> rw [h] <;> linarith

theorem dist2_polar (px py d a : ℝ) (hd : 0 ≤ d) :
    dist2 (px + d * Real.cos a, py + d * Real.sin a) (px, py) = d := by
  unfold dist2
  have h1 : (px + d * Real.cos a - px) ^ 2 + (py + d * Real.sin a - py) ^ 2 = d ^ 2 := by
    have hs := Real.sin_sq_add_cos_sq a
    linear_combination d ^ 2 * hs
  rw [show ((px + d * Real.cos a, py + d * Real.sin a) : ℝ × ℝ).1 = px + d * Real.cos a from rfl]
  simp only []
  rw [h1]
  exact Real.sqrt_sq hd

theorem dist2_self (p : ℝ × ℝ) : dist2 p p = 0 := by
  unfold dist2
  simp [Real.sqrt_zero]

mutual
theorem pack_pairs_ok (t : HTree) (pc : ℝ × ℝ) :
    ∀ en ∈ pack_pairs t pc,
      dist2 en.center en.parent_center + en.radius ≤ en.parent_radius := by
  cases t with
  | mk ty ch =>
    cases ch with
    | nil => intro en hen; simp [pack_pairs] at hen
    | cons c cs =>
      cases cs with
      | nil =>
        intro en hen
        rw [pack_pairs] at hen
        rcases List.mem_cons.mp hen with hen | hen
        · subst hen
          simp only [dist2_self]
          have : pack_radius (HTree.mk ty (HForest.cons c HForest.nil))
              = pack_radius c + 30 := by rw [pack_radius]
          rw [this]
          linarith
        · exact pack_pairs_ok c pc en hen
      | cons c2 cs2 =>
        intro en hen
        rw [pack_pairs] at hen
        obtain ⟨hd, hb⟩ := pack_distance_ok ty c c2 cs2
        exact pack_children_ok (HForest.cons c (HForest.cons c2 cs2)) pc _ _ _ 0 hd hb en hen
theorem pack_children_ok (F : HForest) (pc : ℝ × ℝ) (pr d : ℝ) (n : ℕ) (k : ℕ)
    (hd : 0 ≤ d) (hb : ∀ c, memF c F → d + pack_radius c ≤ pr) :
    ∀ en ∈ pack_children pc pr d n F k,
      dist2 en.center en.parent_center + en.radius ≤ en.parent_radius := by
  cases F with
  | nil => intro en hen; simp [pack_children] at hen
  | cons c cs =>
    intro en hen
    rw [pack_children] at hen
    rcases List.mem_cons.mp hen with hen | hen
    · subst hen
      simp only []
      rw [dist2_polar pc.1 pc.2 d (2 * Real.pi * (k : ℝ) / (n : ℝ)) hd]
      exact hb c (Or.inl rfl)
    · rcases List.mem_append.mp hen with hen | hen
      · exact pack_pairs_ok c _ en hen
      · exact pack_children_ok cs pc pr d n (k + 1) hd (fun c1 hm => hb c1 (Or.inr hm)) en hen
end

theorem pack_forest_ok : ∀ (F : HForest) (cx : ℝ), ∀ en ∈ pack_forest F cx,
    dist2 en.center en.parent_center + en.radius ≤ en.parent_radius
  | .nil, cx => by intro en hen; simp [pack_forest] at hen
  | .cons t ts, cx => by
    intro en hen
    rw [pack_forest] at hen
    rcases List.mem_append.mp hen with hen | hen
    · exact pack_pairs_ok t _ en hen
    · exact pack_forest_ok ts _ en hen

/-! Injectivity of the id scheme.  The argument: the digits of the line
number contain no colon, so the segment after the last colon of an id is
exactly `Nat.repr line`, and `Nat.repr` is injective; peeling it off, the
name (an identifier, hence colon-free) is the segment before the previous
colon; what is left is the prefix.  The lemmas below establish the three
ingredients: a unique-split lemma for lists around a separator absent from
one side, colon-freeness of `Nat.repr`, and injectivity of `Nat.repr`. -/

theorem append_sep_inj {x : Char} : ∀ {l1 l2 r1 r2 : List Char},
    x ∉ l1 → x ∉ l2 → l1 ++ x :: r1 = l2 ++ x :: r2 → l1 = l2 ∧ r1 = r2 := by
  intro l1
  induction l1 with
  | nil =>
    intro l2 r1 r2 _ h2 h
    cases l2 with
    | nil => simpa using h
    | cons y t2 =>
      rw [List.nil_append, List.cons_append] at h
      have hxy : x = y := (List.cons.injEq _ _ _ _ ▸ h).1
      exact absurd (hxy ▸ List.mem_cons_self y t2) h2
  | cons z t1 ih =>
    intro l2 r1 r2 h1 h2 h
    cases l2 with
    | nil =>
      rw [List.nil_append, List.cons_append] at h
      have hxz : x = z := ((List.cons.injEq _ _ _ _ ▸ h).1).symm
      exact absurd (hxz ▸ List.mem_cons_self z t1) h1
    | cons y t2 =>
      rw [List.cons_append, List.cons_append] at h
      have hzy := (List.cons.injEq _ _ _ _ ▸ h).1
      have hrest := (List.cons.injEq _ _ _ _ ▸ h).2
      obtain ⟨he1, he2⟩ := ih (fun hm => h1 (List.mem_cons_of_mem _ hm))
        (fun hm => h2 (List.mem_cons_of_mem _ hm)) hrest
      exact ⟨by rw [hzy, he1], he2⟩

theorem digitChar_ne_colon (n : ℕ) : Nat.digitChar n ≠ ':' := by
  rcases Nat.lt_or_ge n 16 with hlt | hge
  · interval_cases n <;> decide
  · have h : Nat.digitChar n = '*' := by
      unfold Nat.digitChar
      repeat rw [if_neg (by omega)]
    rw [h]; decide

theorem toDigitsCore_ne_colon (b : ℕ) : ∀ (f n : ℕ) (ds : List Char),
    (∀ c ∈ ds, c ≠ ':') → ∀ c ∈ Nat.toDigitsCore b f n ds, c ≠ ':' := by
  intro f
  induction f with
  | zero => intro n ds hds c hc; exact hds c hc
  | succ g ih =>
    intro n ds hds c hc
    rw [Nat.toDigitsCore] at hc
    by_cases hz : n / b = 0
    · rw [if_pos hz] at hc
      rcases List.mem_cons.mp hc with hc | hc
      · subst hc; exact digitChar_ne_colon _
      · exact hds c hc
    · rw [if_neg hz] at hc
      refine ih (n / b) _ ?_ c hc
      intro c1 hc1
      rcases List.mem_cons.mp hc1 with hc1 | hc1
      · subst hc1; exact digitChar_ne_colon _
      · exact hds c1 hc1

theorem repr_ne_colon (n : ℕ) : ':' ∉ (Nat.repr n).data := by
  intro h
  exact toDigitsCore_ne_colon 10 (n + 1) n [] (by intro c hc; cases hc) ':' h rfl

theorem toDigitsCore_acc (b : ℕ) : ∀ (f n : ℕ) (ds : List Char),
    Nat.toDigitsCore b f n ds = Nat.toDigitsCore b f n [] ++ ds := by
  intro f
  induction f with
  | zero => intro n ds; rfl
  | succ g ih =>
    intro n ds
    rw [Nat.toDigitsCore, Nat.toDigitsCore]
    by_cases hz : n / b = 0
    · rw [if_pos hz, if_pos hz]; rfl
    · rw [if_neg hz, if_neg hz, ih (n / b) [Nat.digitChar (n % b)],
        ih (n / b) (Nat.digitChar (n % b) :: ds), List.append_assoc]
      rfl

theorem toDigitsCore_fuel (b : ℕ) (hb : 2 ≤ b) : ∀ (n f1 f2 : ℕ) (ds : List Char),
    n < f1 → n < f2 → Nat.toDigitsCore b f1 n ds = Nat.toDigitsCore b f2 n ds := by
  intro n
  induction n using Nat.strong_induction_on with
  | _ n ih =>
    intro f1 f2 ds hf1 hf2
    cases f1 with
    | zero => omega
    | succ g1 =>
      cases f2 with
      | zero => omega
      | succ g2 =>
        rw [Nat.toDigitsCore, Nat.toDigitsCore]
        by_cases hz : n / b = 0
        · rw [if_pos hz, if_pos hz]
        · rw [if_neg hz, if_neg hz]
          have hn : n ≠ 0 := by
            intro h0; subst h0; exact hz (Nat.zero_div b)
          have hlt : n / b < n := Nat.div_lt_self (Nat.pos_of_ne_zero hn) (by omega)
          exact ih (n / b) hlt g1 g2 _ (by omega) (by omega)

theorem toDigits_small (b n : ℕ) (hz : n / b = 0) :
    Nat.toDigits b n = [Nat.digitChar (n % b)] := by
  rw [Nat.toDigits, Nat.toDigitsCore, if_pos hz]

theorem toDigits_step (b n : ℕ) (hb : 2 ≤ b) (hz : n / b ≠ 0) :
    Nat.toDigits b n = Nat.toDigits b (n / b) ++ [Nat.digitChar (n % b)] := by
  have hn : n ≠ 0 := by
    intro h0; subst h0; exact hz (Nat.zero_div b)
  have hlt : n / b < n := Nat.div_lt_self (Nat.pos_of_ne_zero hn) (by omega)
  rw [Nat.toDigits, Nat.toDigitsCore, if_neg hz,
    toDigitsCore_acc b n (n / b) [Nat.digitChar (n % b)], Nat.toDigits,
    toDigitsCore_fuel b hb (n / b) n (n / b + 1) [] hlt (Nat.lt_succ_self _)]

theorem toDigits_ne_nil (b n : ℕ) (hb : 2 ≤ b) : Nat.toDigits b n ≠ [] := by
  by_cases hz : n / b = 0
  · rw [toDigits_small b n hz]; exact List.cons_ne_nil _ _
  · rw [toDigits_step b n hb hz]
    intro h
    exact absurd (List.append_eq_nil.mp h).2 (List.cons_ne_nil _ _)

theorem digitChar_inj (m1 m2 : ℕ) (h1 : m1 < 10) (h2 : m2 < 10)
    (h : Nat.digitChar m1 = Nat.digitChar m2) : m1 = m2 := by
  interval_cases m1 <;> interval_cases m2 <;> first | rfl | exact absurd h (by decide)

theorem toDigits_inj : ∀ (n1 n2 : ℕ), Nat.toDigits 10 n1 = Nat.toDigits 10 n2 → n1 = n2 := by
  intro n1
  induction n1 using Nat.strong_induction_on with
  | _ n1 ih =>
    intro n2 h
    by_cases hz1 : n1 / 10 = 0
    · by_cases hz2 : n2 / 10 = 0
      · rw [toDigits_small 10 n1 hz1, toDigits_small 10 n2 hz2] at h
        have hd : Nat.digitChar (n1 % 10) = Nat.digitChar (n2 % 10) :=
          (List.cons.injEq _ _ _ _ ▸ h).1
        have := digitChar_inj _ _ (Nat.mod_lt _ (by omega)) (Nat.mod_lt _ (by omega)) hd
        omega
      · rw [toDigits_small 10 n1 hz1, toDigits_step 10 n2 (by omega) hz2] at h
        have hlen := congrArg List.length h
        simp only [List.length_cons, List.length_append, List.length_nil] at hlen
        have : Nat.toDigits 10 (n2 / 10) = [] := List.length_eq_zero.mp (by omega)
        exact absurd this (toDigits_ne_nil 10 _ (by omega))
    · by_cases hz2 : n2 / 10 = 0
      · rw [toDigits_step 10 n1 (by omega) hz1, toDigits_small 10 n2 hz2] at h
        have hlen := congrArg List.length h
        simp only [List.length_cons, List.length_append, List.length_nil] at hlen
        have : Nat.toDigits 10 (n1 / 10) = [] := List.length_eq_zero.mp (by omega)
        exact absurd this (toDigits_ne_nil 10 _ (by omega))
      · rw [toDigits_step 10 n1 (by omega) hz1, toDigits_step 10 n2 (by omega) hz2] at h
        obtain ⟨hpre, hlast⟩ := List.append_inj' h (by rfl)
        have hn : n1 ≠ 0 := fun h0 => hz1 (h0 ▸ Nat.zero_div 10)
        have hdiv : n1 / 10 = n2 / 10 :=
          ih (n1 / 10) (Nat.div_lt_self (Nat.pos_of_ne_zero hn) (by omega)) _ hpre
        have hmod : n1 % 10 = n2 % 10 :=
          digitChar_inj _ _ (Nat.mod_lt _ (by omega)) (Nat.mod_lt _ (by omega))
            (List.cons.injEq _ _ _ _ ▸ hlast).1
        omega

theorem repr_inj (n1 n2 : ℕ) (h : Nat.repr n1 = Nat.repr n2) : n1 = n2 := by
  refine toDigits_inj n1 n2 ?_
  have := congrArg String.data h
  exact this

/-- Injectivity of the id scheme: two ids built by the parsers coincide
exactly when prefix, name and line coincide — provided the names are
colon-free (Python and Java identifiers always are).  In particular
same-named declarations at distinct lines, or distinct names at one line,
never collide; but two import nodes of one file share the fixed name
`import`, so only their line numbers distinguish their ids. -/
theorem pyDeclId_inj (p1 p2 n1 n2 : String) (l1 l2 : ℕ)
    (h1 : ':' ∉ n1.data) (h2 : ':' ∉ n2.data)
    (h : pyDeclId p1 n1 l1 = pyDeclId p2 n2 l2) : p1 = p2 ∧ n1 = n2 ∧ l1 = l2 := by
  have hd := congrArg String.data h
  simp only [pyDeclId, String.data_append] at hd
  have hrev := congrArg List.reverse hd
  simp only [List.reverse_append, List.reverse_cons, List.reverse_nil, List.nil_append,
    List.append_assoc, List.cons_append] at hrev
  have hrd1 : ':' ∉ (Nat.repr l1).data.reverse := fun hm =>
    repr_ne_colon l1 (List.mem_reverse.mp hm)
  have hrd2 : ':' ∉ (Nat.repr l2).data.reverse := fun hm =>
    repr_ne_colon l2 (List.mem_reverse.mp hm)
  obtain ⟨hreprs, hrest⟩ := append_sep_inj hrd1 hrd2 hrev
  have hl : l1 = l2 := by
    refine repr_inj l1 l2 (String.ext ?_)
    have := congrArg List.reverse hreprs
    simpa using this
  have hn1 : ':' ∉ n1.data.reverse := fun hm => h1 (List.mem_reverse.mp hm)
  have hn2 : ':' ∉ n2.data.reverse := fun hm => h2 (List.mem_reverse.mp hm)
  obtain ⟨hnames, hrest2⟩ := append_sep_inj hn1 hn2 hrest
  have hn : n1 = n2 := by
    refine String.ext ?_
    have := congrArg List.reverse hnames
    simpa using this
  have hp : p1 = p2 := by
    refine String.ext ?_
    have hrest3 := (List.cons.injEq _ _ _ _ ▸ hrest2).2
    have := congrArg List.reverse hrest3
    simpa using this
  exact ⟨hp, hn, hl⟩

/-- An index over nodes none of which carries its key is empty — for
example `function_lookup` over a Java build, whose parser never produces
FUNCTION nodes. -/
theorem buildIndex_empty (key : CodeNode → Option String) :
    ∀ (nodes : List CodeNode), (∀ n ∈ nodes, key n = none) → buildIndex key nodes = [] := by
  have aux : ∀ (nodes : List CodeNode) (m : List (String × String)),
      (∀ n ∈ nodes, key n = none) →
      nodes.foldl (fun m n => match key n with | some k => dset m k n.id | none => m) m = m := by
    intro nodes
    induction nodes with
    | nil => intro m _; rfl
    | cons n ns ih =>
      intro m h
      rw [List.foldl_cons, h n (List.mem_cons_self _ _)]
      exact ih m (fun n1 h1 => h n1 (List.mem_cons_of_mem _ h1))
  intro nodes h
  exact aux nodes [] h

/-- Resolving a graph none of whose edge targets carries the sentinel
changes nothing and counts nothing. -/
theorem resolveCross_noop (g1 : GraphState)
    (h : ∀ e ∈ g1.edges, hasMark e.target = false) :
    resolveCrossFileReferences g1 = (g1, 0, 0) := by
  show (⟨g1.nodes, (resolveEdges (function_lookup g1.nodes) (class_lookup g1.nodes)
          (method_lookup g1.nodes) g1.edges).1⟩,
        (resolveEdges (function_lookup g1.nodes) (class_lookup g1.nodes)
          (method_lookup g1.nodes) g1.edges).2) = (g1, 0, 0)
  rw [resolveEdges_noop _ _ _ g1.edges h]

/-! ### The claims -/

/-- C1, counterexample.  The claim says the FIRST occurrence in
node-discovery order wins a name collision in the symbol indices.  The
resolver builds each index by plain dict assignment
(`function_lookup[node.name] = node_id`), so a later node overwrites an
earlier one: with two functions named `f` discovered in order, the index
maps `f` to the second node's id, not the first. -/
theorem c1_first_wins_counterexample :
    dget (function_lookup [c1nodeA, c1nodeB]) "f" ≠ some c1nodeA.id ∧
    dget (function_lookup [c1nodeA, c1nodeB]) "f" = some c1nodeB.id ∧
    c1nodeA.id ≠ c1nodeB.id := by decide

/-- C1, amended.  When the resolver builds its symbol indices
(functionsByName, classesByName, methodsByQualifiedName) over the full
node set and two or more declarations share the same lookup name, the
LAST occurrence in node-discovery order wins: each index maps a name to
the latest-discovered matching node's id, and earlier same-named
declarations are shadowed. -/
theorem c1_last_wins (nodes : List CodeNode) (k : String) :
    dget (function_lookup nodes) k = lastKeyed funKey k nodes ∧
    dget (class_lookup nodes) k = lastKeyed clsKey k nodes ∧
    dget (method_lookup nodes) k = lastKeyed (methodKey nodes) k nodes :=
  ⟨dget_index funKey nodes k, dget_index clsKey nodes k,
   dget_index (methodKey nodes) nodes k⟩

/-- C2, code bug.  The claim (and the spec) say an unresolved edge whose
`call_type` is `constructor` is looked up directly in classesByName, so
`new Foo()` inside method `m` with `Foo` local yields a surviving
`instantiates` edge `m→Foo`.  The resolver's dispatch has branches only
for `call_type == 'function'` and `call_type == 'method'`; a
`constructor` edge falls through with `resolved_target = None` and is
dropped and counted unresolved — even though `Foo` is in the class index,
as this theorem evaluates. -/
theorem c2_constructor_edge_dropped :
    dget (class_lookup [c2file, c2foo, c2m]) "Foo" = some c2foo.id ∧
    c2edge.metadata.call_type = some "constructor" ∧
    resolveCrossFileReferences ⟨[c2file, c2foo, c2m], [c2edge]⟩
      = (⟨[c2file, c2foo, c2m], []⟩, 0, 1) := by decide

/-- C3.  For an unresolved edge with `call_type = function`, the resolver
first consults functionsByName: a hit yields an edge to that function
node with the kind unchanged (`calls` as emitted); only on a miss is
classesByName consulted, a hit there rewriting the kind to
`instantiates`.  Concretely, for local functions `a` and `b` where `a`
calls `b`, resolution produces the `calls` edge `a→b`, resolves one
reference, drops none, and leaves no `unresolved::` target. -/
theorem c3_function_dispatch (fl cl ml : List (String × String)) (e : CodeEdge)
    (tid : String) (hct : e.metadata.call_type.getD "function" = "function") :
    (dget fl (stripMark e.target) = some tid →
      resolveOne fl cl ml e
        = some { source := e.source, target := tid, type := e.type,
                 metadata := e.metadata }) ∧
    (dget fl (stripMark e.target) = none → dget cl (stripMark e.target) = some tid →
      resolveOne fl cl ml e
        = some { source := e.source, target := tid, type := "instantiates",
                 metadata := e.metadata }) ∧
    (resolveCrossFileReferences ⟨[c3file, c3a, c3b], [c3call]⟩
        = (⟨[c3file, c3a, c3b],
            [{ source := c3a.id, target := c3b.id, type := "calls",
               metadata := { call_type := some "function" } }]⟩, 1, 0) ∧
      ∀ e1 ∈ (resolveCrossFileReferences ⟨[c3file, c3a, c3b], [c3call]⟩).1.edges,
        hasMark e1.target = false) := by
  refine ⟨?_, ?_, by decide, by decide⟩
  · intro hfl
    simp [resolveOne, resolveTarget, hct, hfl]
  · intro hfl hcl
    simp [resolveOne, resolveTarget, hct, hfl, hcl]

/-- C3, witness: the function-index hit branch at a concrete input. -/
theorem c3_function_dispatch_witness :
    resolveOne [("b", "m.py::b:4")] [] [] c3call
      = some { source := c3call.source, target := "m.py::b:4", type := c3call.type,
               metadata := c3call.metadata } :=
  (c3_function_dispatch [("b", "m.py::b:4")] [] [] c3call "m.py::b:4" (by decide)).1
    (by decide)

/-- C4 (spec-modelled: the circle-packing layout is absent from src/, so
the definitions follow §4.4 of the spec).  In every circle-packing layout
result — a single tree laid out anywhere, or a forest of roots along the
baseline — every parent/child pair satisfies
`distance(center, parentCenter) + radius ≤ parentRadius`: each child
circle lies entirely inside its parent's circle, for containment trees of
any branching factor and depth. -/
theorem c4_circle_containment (t : HTree) (pc : ℝ × ℝ) (roots : HForest) (x0 : ℝ) :
    (pack_pairs t pc).Forall
      (fun en => dist2 en.center en.parent_center + en.radius ≤ en.parent_radius) ∧
    (pack_forest roots x0).Forall
      (fun en => dist2 en.center en.parent_center + en.radius ≤ en.parent_radius) :=
  ⟨List.forall_iff_forall_mem.mpr (pack_pairs_ok t pc),
   List.forall_iff_forall_mem.mpr (pack_forest_ok roots x0)⟩

/-- C5.  In every hierarchical tree layout result, roots are placed at
`y = 0` and every node's children at `y = parent.y + 150`, so (first
conjunct) every node at containment depth `d` has `y = 150·d`; moreover a
node laid out at `(x, y)` records exactly that position (second
conjunct), its children are all laid out with base line `y + 150` at
their own depth offsets (third conjunct), and a parent never shares its
children's `y` (fourth conjunct). -/
theorem c5_layer_invariant (roots : HForest) (ty : NodeType) (ch : HForest) (x y : ℚ) :
    List.Forall₂ (fun (p : ℚ × ℚ) (d : ℕ) => p.2 = 150 * (d : ℚ))
      (calculate_positions roots 0) (depthsF roots) ∧
    (position_subtree (HTree.mk ty ch) x y).head? = some (x, y) ∧
    List.Forall₂ (fun (p : ℚ × ℚ) (d : ℕ) => p.2 = (y + 150) + 150 * (d : ℚ))
      (position_children ch (x - total_children_width ch / 2) (y + 150)) (depthsF ch) ∧
    y + 150 ≠ y := by
  refine ⟨calculate_positions_layerY roots 0, ?_,
    position_children_layerY ch _ _, by intro hEq; linarith⟩
  rw [position_subtree]
  rfl

/-- C6.  The post-order size pass equals, node by node, the
specification's description of it: a leaf's box is `(150, 100)`; an
internal node's base width is the sum of its children's widths plus 50
per gap between siblings, its max child height is `H`, and the kind cases
give File `(max (base+100) 300, H+200)`, Class `(max (base+80) 250,
H+150)`, and otherwise `(max base 150, H+100)` — as recorded in
`spec_subtree_size`. -/
theorem c6_subtree_size (t : HTree) (ty : NodeType) :
    calculate_subtree_size t = spec_subtree_size t ∧
    calculate_subtree_size (HTree.mk ty HForest.nil) = (150, 100) :=
  ⟨calculate_subtree_size_eq_spec t, by rw [calculate_subtree_size]⟩

/-- C7.  Resolution is a pure function of the node/edge set: it never
touches the node set; provided no node id itself carries the
`unresolved::` sentinel (node ids are file-path/name/line strings, the
sentinel marks placeholders only), no surviving edge target carries the
sentinel after one pass, so a second pass over the output resolves and
drops nothing and returns the state unchanged. -/
theorem c7_resolution_idempotent (g : GraphState)
    (hids : ∀ n ∈ g.nodes, hasMark n.id = false) :
    (resolveCrossFileReferences g).1.nodes = g.nodes ∧
    (∀ e1 ∈ (resolveCrossFileReferences g).1.edges, hasMark e1.target = false) ∧
    resolveCrossFileReferences (resolveCrossFileReferences g).1
      = ((resolveCrossFileReferences g).1, 0, 0) := by
  have h1 : ∀ e1 ∈ (resolveCrossFileReferences g).1.edges, hasMark e1.target = false := by
    intro e1 he1
    exact resolveEdges_markFree _ _ _
      (index_markFree funKey g.nodes hids)
      (index_markFree clsKey g.nodes hids)
      (index_markFree (methodKey g.nodes) g.nodes hids)
      g.edges e1 he1
  exact ⟨rfl, h1, resolveCross_noop _ h1⟩

/-- C7, witness: a concrete graph with one resolvable and one external
call. -/
theorem c7_resolution_idempotent_witness :
    (resolveCrossFileReferences c7g).1.nodes = c7g.nodes ∧
    (∀ e1 ∈ (resolveCrossFileReferences c7g).1.edges, hasMark e1.target = false) ∧
    resolveCrossFileReferences (resolveCrossFileReferences c7g).1
      = ((resolveCrossFileReferences c7g).1, 0, 0) :=
  c7_resolution_idempotent c7g (by decide)

/-- C8.  The resolver's edge pass is total — it never raises: every edge
whose target does not carry the `unresolved::` prefix passes through
unchanged, marked edges are replaced by their resolution or silently
removed (the filterMap equation), the unresolved counter counts exactly
the removed edges (so output length plus the counter is the input
length), and the concrete `externalLib.doThing()` example — whose
receiver is not a locally declared class — is dropped and counted while
the build goes on. -/
theorem c8_unresolved_dropped (nodes : List CodeNode) (edges : List CodeEdge) :
    (resolveCrossFileReferences ⟨nodes, edges⟩).1.edges
      = edges.filterMap (fun e =>
          if hasMark e.target
          then resolveOne (function_lookup nodes) (class_lookup nodes)
                 (method_lookup nodes) e
          else some e) ∧
    (resolveCrossFileReferences ⟨nodes, edges⟩).2.2
      = (edges.filter (fun e => hasMark e.target &&
          (resolveOne (function_lookup nodes) (class_lookup nodes)
             (method_lookup nodes) e).isNone)).length ∧
    (resolveCrossFileReferences ⟨nodes, edges⟩).1.edges.length
        + (resolveCrossFileReferences ⟨nodes, edges⟩).2.2 = edges.length ∧
    resolveCrossFileReferences ⟨[c8caller], [c8extCall]⟩ = (⟨[c8caller], []⟩, 0, 1) := by
  obtain ⟨h1, h2, h3⟩ := resolveEdges_spec (function_lookup nodes) (class_lookup nodes)
    (method_lookup nodes) edges
  exact ⟨h1, h2, h3, by decide⟩

/-- C9, counterexample.  The claim says no two distinct nodes of one
build ever receive the same id, the id being derived from file path,
declared name and line.  An import node's id is
`f"{file_id}::import:{lineno}"` — the module name does not enter it — so
the two distinct Import statements of the one-line module
`import a; import b` (same `lineno`) receive the same id while their
names differ. -/
theorem c9_id_collision_counterexample :
    (pyNodes "f.py" [PyStmt.importStmt "a" 1, PyStmt.importStmt "b" 1]).map CodeNode.id
      = ["f.py::import:1", "f.py::import:1"] ∧
    (pyNodes "f.py" [PyStmt.importStmt "a" 1, PyStmt.importStmt "b" 1]).map CodeNode.name
      = ["a", "b"] ∧
    ("a" : String) ≠ "b" := by decide

/-- C9, amended.  Every node id is the deterministic string
`prefix::name:line` — file path (or class id) as prefix, declared name,
and declaration line — except that an Import node's "name" is the fixed
token `import` (second conjunct), so two import statements on one line of
one file collide.  Ids of this scheme coincide exactly when prefix, name
and line all coincide (first conjunct, names colon-free as identifiers
are), so same-named siblings at distinct lines never collide; and an
assignment to the node dict never deletes an existing entry (third
conjunct). -/
theorem c9_id_scheme (p1 p2 n1 n2 : String) (l1 l2 : ℕ)
    (h1 : ':' ∉ n1.data) (h2 : ':' ∉ n2.data) :
    (pyDeclId p1 n1 l1 = pyDeclId p2 n2 l2 ↔ (p1 = p2 ∧ n1 = n2 ∧ l1 = l2)) ∧
    pyNodes p1 [PyStmt.importStmt n1 l1]
      = [{ id := pyDeclId p1 "import" l1, name := n1, type := NodeType.imp,
           parent_id := some p1 }] ∧
    (∀ (m : List (String × CodeNode)) (k : String) (v : CodeNode) (k1 : String),
      (dget m k1).isSome → (dget (dset m k v) k1).isSome) := by
  refine ⟨⟨pyDeclId_inj p1 p2 n1 n2 l1 l2 h1 h2, ?_⟩, rfl, ?_⟩
  · rintro ⟨hp, hn, hl⟩
    rw [hp, hn, hl]
  · intro m k v k1 hs
    rw [dget_dset]
    by_cases hk : k1 = k
    · simp [hk]
    · simpa [hk] using hs

/-- C9, witness: the id scheme evaluated at concrete names and lines. -/
theorem c9_id_scheme_witness :
    ((pyDeclId "f.py" "a" 3 = pyDeclId "f.py" "b" 3) ↔
      ("f.py" = "f.py" ∧ ("a" : String) = "b" ∧ (3 : ℕ) = 3)) ∧
    pyNodes "f.py" [PyStmt.importStmt "a" 3]
      = [{ id := pyDeclId "f.py" "import" 3, name := "a", type := NodeType.imp,
           parent_id := some "f.py" }] ∧
    (∀ (m : List (String × CodeNode)) (k : String) (v : CodeNode) (k1 : String),
      (dget m k1).isSome → (dget (dset m k v) k1).isSome) :=
  c9_id_scheme "f.py" "f.py" "a" "b" 3 3 (by decide) (by decide)

/-- C10.  An unresolved edge whose metadata has no `call_type` key — as
every `inherits` and `implements` edge of `JavaParser` — is dispatched
exactly like `call_type = function`: functionsByName first (a hit keeps
the original kind), then classesByName, a hit there rewriting the
surviving kind to `instantiates` — which differs from `inherits` and
`implements`, so such an edge to a locally declared class never survives
with its original kind (in a Java build functionsByName is empty, fourth
conjunct, so the function-index branch never fires); the concrete
`class Derived extends Base` example comes out as an `instantiates`
edge. -/
theorem c10_no_call_type_dispatch (fl cl ml : List (String × String)) (e : CodeEdge)
    (tid : String) (nodes : List CodeNode) (hct : e.metadata.call_type = none) :
    (dget fl (stripMark e.target) = some tid →
      resolveOne fl cl ml e
        = some { source := e.source, target := tid, type := e.type,
                 metadata := e.metadata }) ∧
    (dget fl (stripMark e.target) = none → dget cl (stripMark e.target) = some tid →
      resolveOne fl cl ml e
        = some { source := e.source, target := tid, type := "instantiates",
                 metadata := e.metadata } ∧
      (e.type = "inherits" ∨ e.type = "implements" → ("instantiates" : String) ≠ e.type)) ∧
    (dget fl (stripMark e.target) = none → dget cl (stripMark e.target) = none →
      resolveOne fl cl ml e = none) ∧
    ((∀ n ∈ nodes, n.type ≠ NodeType.function) → function_lookup nodes = []) ∧
    resolveCrossFileReferences ⟨[c10file, c10base, c10derived], [c10inherits]⟩
      = (⟨[c10file, c10base, c10derived],
          [{ source := c10derived.id, target := c10base.id, type := "instantiates" }]⟩,
         1, 0) := by
  refine ⟨?_, ?_, ?_, ?_, by decide⟩
  · intro hfl
    simp [resolveOne, resolveTarget, hct, hfl]
  · intro hfl hcl
    refine ⟨by simp [resolveOne, resolveTarget, hct, hfl, hcl], ?_⟩
    rintro (he | he) <;> rw [he] <;> decide
  · intro hfl hcl
    simp [resolveOne, resolveTarget, hct, hfl, hcl]
  · intro hnone
    exact buildIndex_empty funKey nodes
      (fun n hn => by simp [funKey, hnone n hn])

/-- C10, witness: the class-index branch at the concrete `extends`
edge. -/
theorem c10_no_call_type_dispatch_witness :
    resolveOne [] [("Base", "B.java::Base:1")] [] c10inherits
      = some { source := c10inherits.source, target := "B.java::Base:1",
               type := "instantiates", metadata := c10inherits.metadata } :=
  ((c10_no_call_type_dispatch [] [("Base", "B.java::Base:1")] [] c10inherits
      "B.java::Base:1" [] (by decide)).2.1 (by decide) (by decide)).1

end CodeGrapher
